import Mathlib

/-!
Shallow embedding of the `vekk` crate: a small-size-optimized vector that
stores up to `A::CAPACITY` elements inline and promotes to a heap buffer
(`ThinVec`) when the inline capacity is exceeded.

Conventions of the embedding:
  * The element type `α` carries an `Inhabited` instance; `default` models
    Rust's `Default::default()` placeholder value used by `core::mem::take`.
  * The inline array `A` is modelled as a `List α` of length `A::CAPACITY`;
    the capacity is passed explicitly as `cap` to each operation.
  * `u16` quantities are `Nat`s reduced `% 65536` exactly where the Rust
    code performs a `u16` cast or increment.
  * Operations that can panic (out-of-bounds slice indexing) return
    `Option`, `none` meaning a panic/abort.
  * The external `ThinVec` heap buffer is opaque per the spec; it is
    modelled as a `List α` with standard vector semantics (`push` appends,
    `pop` removes the last element, `insert` panics for `index > len`).
-/

namespace Vekk

/-- The representation of `Vekk<A>` (src/lib.rs): either inline storage
`Repr::Inline { len: u16, array: A }` or a heap buffer `Repr::Heap(ThinVec)`.
The inline `array` list always has length `cap = A::CAPACITY`. -/
inductive Repr (α : Type) where
  | inline (len : Nat) (array : List α)
  | heap (vec : List α)
deriving DecidableEq

/-- Well-formedness of a representation: the inline array has exactly
`cap` slots and the `u16` length is within the effective inline capacity.
Every value reachable through the public API satisfies this. -/
def wf (cap : Nat) : Repr α → Prop
  | .inline len array => array.length = cap ∧ len ≤ min cap 65535
  | .heap _ => True

instance (cap : Nat) (v : Repr α) : Decidable (wf cap v) := by
  cases v <;> simp only [wf] <;> infer_instance

/-- Source `Vekk::inline_capacity`: `min(A::CAPACITY, u16::MAX as usize)`. -/
def inline_capacity (cap : Nat) : Nat := min cap 65535

/-- Source `Vekk::len`. -/
def len : Repr α → Nat
  | .inline len _ => len
  | .heap vec => vec.length

/-- Source `Deref for Vekk`: the visible slice, `&array[..len]` when inline,
the whole buffer when heap. -/
def toSlice : Repr α → List α
  | .inline len array => array.take len
  | .heap vec => vec

/-- True exactly on the `Heap` representation. -/
def isHeap : Repr α → Bool
  | .inline _ _ => false
  | .heap _ => true

/-- Panicking slice write `slice[i] = x`: `none` models the out-of-bounds
panic. -/
def setPanic (l : List α) (i : Nat) (x : α) : Option (List α) :=
  if i < l.length then some (l.set i x) else none

/-- Panicking `slice.swap(i, j)`. -/
def swapPanic (l : List α) (i j : Nat) : Option (List α) :=
  match l[i]?, l[j]? with
  | some a, some b => some ((l.set i b).set j a)
  | _, _ => none

/-- Models the heap buffer's `ThinVec::insert` (standard vector insert;
panics when `index > len`). -/
def tvInsert (vec : List α) (index : Nat) (x : α) : Option (List α) :=
  if index ≤ vec.length then some (vec.take index ++ x :: vec.drop index) else none

/-- Models the heap buffer's `ThinVec::pop` (removes and returns the last
element; `none` on empty, never panics). -/
def tvPop (vec : List α) : Option α × List α :=
  match vec.getLast? with
  | some x => (some x, vec.dropLast)
  | none => (none, vec)

/-- Source `Vekk::thinvec_from_array`: moves every slot of the inline array
into a fresh heap buffer (the `capacity` argument only sizes the allocation
and is irrelevant to contents; the vacated array, left full of placeholders,
is discarded by every caller). Note: the loop runs over the WHOLE array
(`array.as_slice_mut()`), not just the live prefix. -/
def thinvec_from_array (array : List α) (capacity : Nat) : List α :=
  let _ := capacity
  array

/-- Source `Vekk::push_inner`. `none` models a panic (which `wf` rules out). -/
def push_inner [Inhabited α] (cap : Nat) (v : Repr α) (item : α) : Option (Repr α) :=
  match v with
  | .inline len array =>
    if len = inline_capacity cap then
      let vec := thinvec_from_array array (inline_capacity cap + 1)
      some (.heap (vec ++ [item]))
    else
      match setPanic array len item with
      | some arr => some (.inline ((len + 1) % 65536) arr)
      | none => none
  | .heap vec => some (.heap (vec ++ [item]))

/-- Source `Vekk::extend`: repeated `push_inner` over the input sequence. -/
def extend [Inhabited α] (cap : Nat) (v : Repr α) (items : List α) : Option (Repr α) :=
  items.foldl (fun acc item => acc.bind (fun r => push_inner cap r item)) (some v)

/-- Source `Vekk::pop`. Outer `Option` models a panic (ruled out by `wf`);
the inner `Option α` is the function's return value (`none` = empty). -/
def pop [Inhabited α] : Repr α → Option (Option α × Repr α)
  | .inline len array =>
    if 0 < len then
      match array[len - 1]? with
      | some item => some (some item, .inline (len - 1) (array.set (len - 1) default))
      | none => none
    else
      some (none, .inline len array)
  | .heap vec =>
    let p := tvPop vec
    some (p.1, .heap p.2)

/-- Body of the shift loop of `Vekk::insert`'s inline branch, structurally
recursive on the number of remaining iterations. -/
def swapLoopAux (array : List α) (idx : Nat) : Nat → Option (List α)
  | 0 => some array
  | Nat.succ n =>
    match swapPanic array idx (idx + 1) with
    | some arr => swapLoopAux arr (idx + 1) n
    | none => none

/-- The shift loop of `Vekk::insert`'s inline branch:
`for idx in index..len { slice.swap(idx, idx + 1) }` runs its body exactly
`lenv - idx` times, on consecutive values of `idx`. -/
def swapLoop (array : List α) (idx lenv : Nat) : Option (List α) :=
  swapLoopAux array idx (lenv - idx)

/-- Source `Vekk::insert`. `none` models a panic. -/
def insert [Inhabited α] (cap : Nat) (v : Repr α) (index : Nat) (x : α) : Option (Repr α) :=
  match v with
  | .inline len array =>
    if len = inline_capacity cap then
      (tvInsert (thinvec_from_array array (inline_capacity cap + 1)) index x).map .heap
    else
      match swapLoop array index len with
      | some arr2 =>
        match setPanic arr2 index x with
        | some arr3 => some (.inline ((len + 1) % 65536) arr3)
        | none => none
      | none => none
  | .heap vec => (tvInsert vec index x).map .heap

/-- Source `Default for Vekk`: empty inline container with `A::default()`
(an array of placeholder values). -/
def defaultVekk [Inhabited α] (cap : Nat) : Repr α :=
  .inline 0 (List.replicate cap default)

/-- Source `From<A> for Vekk<A>`: wraps the array whole, with
`len: A::CAPACITY as u16` (a truncating cast). Here `cap = array.length`. -/
def from_array (array : List α) : Repr α :=
  .inline (array.length % 65536) array

/-- The fill loop of `FromIterator for Vekk`: writes items into the inline
array until it exhausts (Inline result) or the count reaches the inline
capacity while an item is pending, in which case it promotes: the heap
buffer receives every slot of the inline array followed by the REST of the
iterator. The item just pulled is not pushed by the source. -/
def fill_loop [Inhabited α] (capv : Nat) (array : List α) (lenv : Nat) : List α → Repr α
  | [] => .inline (lenv % 65536) array
  | item :: rest =>
    if capv ≤ lenv then
      .heap (array ++ rest)
    else
      fill_loop capv (array.set lenv item) (lenv + 1) rest

/-- Source `FromIterator for Vekk`: `hint` is the iterator's initial
`size_hint()`; if the upper bound exceeds `A::CAPACITY` the whole sequence
is drained straight into a heap buffer, otherwise the fill loop runs. -/
def from_iter [Inhabited α] (cap : Nat) (hint : Nat × Option Nat) (l : List α) : Repr α :=
  match hint.2 with
  | some upper =>
    if cap < upper then .heap l
    else fill_loop (min cap 65535) (List.replicate cap default) 0 l
  | none => fill_loop (min cap 65535) (List.replicate cap default) 0 l

/-- The consuming iterator of src/iter.rs: `IterRepr::Inline(InlineIter
{ pos, len, array })` or `IterRepr::Heap(thin_vec::IntoIter)` (the latter
modelled as the list of elements not yet yielded). -/
inductive IterRepr (α : Type) where
  | inline (pos lenv : Nat) (array : List α)
  | heap (vec : List α)
deriving DecidableEq

/-- Source `Iterator::next` for `Iter`/`InlineIter`: outer `Option` models
a panic; the inner `Option α` is the yielded item (`none` = exhausted). -/
def iterNext [Inhabited α] : IterRepr α → Option (Option α × IterRepr α)
  | .inline pos lenv array =>
    if pos = lenv then
      some (none, .inline pos lenv array)
    else
      match array[pos]? with
      | some item =>
        some (some item, .inline ((pos + 1) % 65536) lenv (array.set pos default))
      | none => none
  | .heap vec =>
    match vec with
    | [] => some (none, .heap [])
    | x :: rest => some (some x, .heap rest)

/-- Source `Iterator::size_hint`: `(len - pos, Some(len - pos))` for the
inline iterator; the heap iterator forwards its exact hint. -/
def iterSizeHint : IterRepr α → Nat × Option Nat
  | .inline pos lenv _ => (lenv - pos, some (lenv - pos))
  | .heap vec => (vec.length, some vec.length)

/-- Source `IntoIterator for Vekk`. -/
def intoIter : Repr α → IterRepr α
  | .inline len array => .inline 0 len array
  | .heap vec => .heap vec

/-- Elements an iterator state has yet to yield. -/
def iterToList : IterRepr α → List α
  | .inline pos lenv array => (array.drop pos).take (lenv - pos)
  | .heap vec => vec

/-- Well-formedness of an inline iterator state (`u16` fields in range and
within the array; heap states carry no constraint). -/
def wfIter : IterRepr α → Prop
  | .inline pos lenv array => pos ≤ lenv ∧ lenv ≤ array.length ∧ lenv ≤ 65535
  | .heap _ => True

instance (it : IterRepr α) : Decidable (wfIter it) := by
  cases it <;> simp only [wfIter] <;> infer_instance

/-- Runs the iterator up to `fuel` steps, collecting yielded items; stops
early when the iterator reports exhaustion. `none` models a panic. -/
def drain [Inhabited α] (fuel : Nat) (it : IterRepr α) : Option (List α × IterRepr α) :=
  match fuel with
  | 0 => some ([], it)
  | Nat.succ fuel =>
    match iterNext it with
    | none => none
    | some (none, it2) => some ([], it2)
    | some (some x, it2) => (drain fuel it2).map (fun p => (x :: p.1, p.2))

/-- A single mutating operation on a container. -/
inductive Op (α : Type) where
  | push (x : α)
  | ins (index : Nat) (x : α)
  | popOp
  | ext (xs : List α)

/-- Applies one operation; `none` models a panic. -/
def applyOp [Inhabited α] (cap : Nat) (v : Repr α) : Op α → Option (Repr α)
  | .push x => push_inner cap v x
  | .ins index x => insert cap v index x
  | .popOp => (pop v).map Prod.snd
  | .ext xs => extend cap v xs

/-- Applies a sequence of operations left to right. -/
def applyOps [Inhabited α] (cap : Nat) (v : Repr α) (ops : List (Op α)) : Option (Repr α) :=
  ops.foldl (fun acc op => acc.bind (fun r => applyOp cap r op)) (some v)

theorem set_take_succ (array : List α) (n : Nat) (x : α) (h : n < array.length) :
    (array.set n x).take (n + 1) = array.take n ++ [x] := by
  rw [List.set_eq_take_cons_drop x h, List.take_append_eq_append_take]
  simp [List.length_take, Nat.min_eq_left h.le, Nat.le_of_lt h]

/-- The fill loop of `FromIterator` when the input fits inside the inline
capacity: the result is inline, the input written over the array prefix. -/
theorem fill_loop_fits [Inhabited α] (l : List α) :
    ∀ (array : List α) (lenv capv : Nat), lenv + l.length ≤ capv → capv ≤ array.length →
    fill_loop capv array lenv l =
      .inline ((lenv + l.length) % 65536)
        (array.take lenv ++ l ++ array.drop (lenv + l.length)) := by
  induction l with
  | nil =>
    intro array lenv capv _ _
    simp [fill_loop]
  | cons x rest ih =>
    intro array lenv capv hle hcap
    have hle2 : lenv + rest.length + 1 ≤ capv := by simpa [Nat.add_comm, Nat.add_assoc] using hle
    have hlt : lenv < capv := by omega
    have hlenarr : lenv < array.length := Nat.lt_of_lt_of_le hlt hcap
    rw [fill_loop, if_neg (by omega)]
    rw [ih (array.set lenv x) (lenv + 1) capv (by omega)
      (by simpa using hcap)]
    have h4 : lenv + 1 + rest.length = lenv + (x :: rest).length := by
      simp [List.length_cons]
      omega
    rw [set_take_succ array lenv x hlenarr,
      List.drop_set_of_lt x array (show lenv < lenv + 1 + rest.length by omega), h4]
    simp [List.append_assoc]

/-- The fill loop of `FromIterator` when the input overflows the inline
capacity: promotion moves the whole inline array (live prefix, the first
`capv - lenv` input items, and the untouched tail slots) into the heap and
appends the rest of the input minus the item that triggered promotion. -/
theorem fill_loop_overflow [Inhabited α] (l : List α) :
    ∀ (array : List α) (lenv capv : Nat), lenv ≤ capv → capv ≤ array.length →
    capv < lenv + l.length →
    fill_loop capv array lenv l =
      .heap ((array.take lenv ++ l.take (capv - lenv) ++ array.drop capv) ++
        l.drop (capv - lenv + 1)) := by
  induction l with
  | nil =>
    intro array lenv capv h1 _ h3
    simp at h3
    omega
  | cons x rest ih =>
    intro array lenv capv h1 h2 h3
    have h32 : capv < lenv + rest.length + 1 := by
      simpa [Nat.add_comm, Nat.add_assoc] using h3
    by_cases hfull : capv ≤ lenv
    · have hcl : capv = lenv := Nat.le_antisymm hfull h1
      rw [fill_loop, if_pos hfull]
      subst hcl
      simp
    · have hlt : lenv < capv := Nat.lt_of_not_le hfull
      have hlenarr : lenv < array.length := Nat.lt_of_lt_of_le hlt h2
      rw [fill_loop, if_neg hfull]
      rw [ih (array.set lenv x) (lenv + 1) capv (by omega) (by simpa using h2)
        (by omega)]
      congr 2
      · rw [set_take_succ array lenv x hlenarr,
          List.drop_set_of_lt x array hlt]
        have htk : capv - lenv = (capv - (lenv + 1)) + 1 := by omega
        rw [htk]
        simp [List.append_assoc]
      · have htk : capv - lenv + 1 = (capv - (lenv + 1) + 1) + 1 := by omega
        rw [htk]
        simp

/-- One iterator step: a well-formed state never panics, stays well
formed, yields the head of its pending elements, and is unchanged once
exhausted. -/
theorem iterNext_step [Inhabited α] (it : IterRepr α) (hwf : wfIter it) :
    ∃ ox it2, iterNext it = some (ox, it2) ∧ wfIter it2 ∧
      (ox = none → it2 = it ∧ iterToList it = []) ∧
      (∀ x, ox = some x → iterToList it = x :: iterToList it2) := by
  cases it with
  | inline pos lenv array =>
    obtain ⟨h1, h2, h3⟩ := hwf
    by_cases hpl : pos = lenv
    · refine ⟨none, .inline pos lenv array, ?_, ⟨h1, h2, h3⟩, ?_, ?_⟩
      · simp [iterNext, hpl]
      · intro _
        refine ⟨rfl, ?_⟩
        simp [iterToList, hpl]
      · intro x hx
        simp at hx
    · have hlt : pos < lenv := Nat.lt_of_le_of_ne h1 hpl
      have hpa : pos < array.length := Nat.lt_of_lt_of_le hlt h2
      have hmod : (pos + 1) % 65536 = pos + 1 := Nat.mod_eq_of_lt (by omega)
      refine ⟨some array[pos], .inline (pos + 1) lenv (array.set pos default), ?_, ?_, ?_, ?_⟩
      · simp [iterNext, hpl, List.getElem?_eq_getElem hpa, hmod]
      · exact ⟨hlt, by simpa using h2, h3⟩
      · intro hx
        simp at hx
      · intro x hx
        simp at hx
        subst hx
        simp only [iterToList]
        rw [List.drop_set_of_lt default array (Nat.lt_succ_self pos),
          List.drop_eq_getElem_cons hpa]
        have : lenv - pos = (lenv - (pos + 1)) + 1 := by omega
        rw [this, List.take_succ_cons]
  | heap vec =>
    cases vec with
    | nil =>
      refine ⟨none, .heap [], by simp [iterNext], trivial, ?_, ?_⟩
      · intro _
        exact ⟨rfl, rfl⟩
      · intro x hx
        simp at hx
    | cons x rest =>
      refine ⟨some x, .heap rest, by simp [iterNext], trivial, ?_, ?_⟩
      · intro hx
        simp at hx
      · intro y hy
        simp at hy
        subst hy
        rfl

/-- The size hint of a well-formed iterator state is exactly the number of
elements it has yet to yield, as both the lower and the upper bound. -/
theorem iterSizeHint_exact (it : IterRepr α) (hwf : wfIter it) :
    iterSizeHint it = ((iterToList it).length, some (iterToList it).length) := by
  cases it with
  | inline pos lenv array =>
    obtain ⟨h1, h2, _⟩ := hwf
    have : (iterToList (.inline pos lenv array : IterRepr α)).length = lenv - pos := by
      simp [iterToList]
      omega
    rw [iterSizeHint, this]
  | heap vec => rfl

/-- Draining a well-formed iterator with fuel equal to its pending count
yields exactly the pending elements and ends in an exhausted state that
reproduces itself. -/
theorem drain_exact [Inhabited α] :
    ∀ (k : Nat) (it : IterRepr α), wfIter it → (iterToList it).length = k →
    ∃ r, drain k it = some (iterToList it, r) ∧ iterNext r = some (none, r) ∧ wfIter r := by
  intro k
  induction k with
  | zero =>
    intro it hwf hlen
    have hnil : iterToList it = [] := List.length_eq_zero.mp hlen
    obtain ⟨ox, it2, hnext, _, hnone, hsome⟩ := iterNext_step it hwf
    cases ox with
    | none =>
      obtain ⟨heq, _⟩ := hnone rfl
      refine ⟨it, by simp [drain, hnil], ?_, hwf⟩
      rw [heq] at hnext
      exact hnext
    | some x =>
      rw [hsome x rfl] at hnil
      simp at hnil
  | succ k ih =>
    intro it hwf hlen
    obtain ⟨ox, it2, hnext, hwf2, hnone, hsome⟩ := iterNext_step it hwf
    cases ox with
    | none =>
      obtain ⟨_, hnil⟩ := hnone rfl
      rw [hnil] at hlen
      simp at hlen
    | some x =>
      have hcons := hsome x rfl
      have hlen2 : (iterToList it2).length = k := by
        rw [hcons] at hlen
        simpa using hlen
      obtain ⟨r, hdr, hre, hwfr⟩ := ih it2 hwf2 hlen2
      refine ⟨r, ?_, hre, hwfr⟩
      rw [drain, hnext]
      simp [hdr, hcons]

/-- An exhausted self-reproducing state keeps returning no elements for
any further number of steps. -/
theorem drain_exhausted [Inhabited α] (r : IterRepr α)
    (h : iterNext r = some (none, r)) : ∀ k, drain k r = some ([], r) := by
  intro k
  cases k with
  | zero => rfl
  | succ k => rw [drain, h]

/-- Any partial drain of a well-formed iterator reaches a well-formed
state and has yielded a prefix of the pending elements. -/
theorem drain_prefix [Inhabited α] :
    ∀ (k : Nat) (it : IterRepr α), wfIter it →
    ∀ xs it2, drain k it = some (xs, it2) →
    wfIter it2 ∧ iterToList it = xs ++ iterToList it2 := by
  intro k
  induction k with
  | zero =>
    intro it hwf xs it2 h
    simp [drain] at h
    obtain ⟨h1, h2⟩ := h
    subst h1
    subst h2
    exact ⟨hwf, by simp⟩
  | succ k ih =>
    intro it hwf xs it2 h
    obtain ⟨ox, it3, hnext, hwf3, hnone, hsome⟩ := iterNext_step it hwf
    rw [drain, hnext] at h
    cases ox with
    | none =>
      simp at h
      obtain ⟨h1, h2⟩ := h
      obtain ⟨heq, _⟩ := hnone rfl
      subst h1
      subst h2
      rw [heq]
      exact ⟨hwf, by simp⟩
    | some x =>
      dsimp only at h
      cases hdr : drain k it3 with
      | none =>
        rw [hdr] at h
        simp at h
      | some p =>
        rw [hdr] at h
        simp at h
        obtain ⟨h1, h2⟩ := h
        obtain ⟨hw, hsplit⟩ := ih it3 hwf3 p.1 p.2 (by rw [hdr])
        subst h2
        refine ⟨hw, ?_⟩
        rw [hsome x rfl, hsplit, ← h1]
        simp

/-- The iterator produced from a well-formed container is well formed. -/
theorem wfIter_intoIter (cap : Nat) (v : Repr α) (hwf : wf cap v) :
    wfIter (intoIter v) := by
  cases v with
  | inline lv array =>
    obtain ⟨h1, h2⟩ := hwf
    exact ⟨Nat.zero_le _, by omega, by omega⟩
  | heap vec => trivial

/-- The pending elements of a fresh iterator are the visible slice. -/
theorem iterToList_intoIter (cap : Nat) (v : Repr α) (hwf : wf cap v) :
    iterToList (intoIter v) = toSlice v := by
  cases v with
  | inline lv array => simp [intoIter, iterToList, toSlice]
  | heap vec => rfl

/-- The visible slice of a well-formed container has exactly `len`
elements. -/
theorem length_toSlice (cap : Nat) (v : Repr α) (hwf : wf cap v) :
    (toSlice v).length = len v := by
  cases v with
  | inline lv array =>
    obtain ⟨h1, h2⟩ := hwf
    simp [toSlice, len]
    omega
  | heap vec => rfl

theorem take_set_self (l : List α) (n : Nat) (x : α) : (l.set n x).take n = l.take n := by
  rcases Nat.lt_or_ge n l.length with h | h
  · rw [List.set_eq_take_cons_drop x h, List.take_append_eq_append_take]
    simp [List.length_take, Nat.min_eq_left h.le]
  · rw [List.set_eq_of_length_le h]

/-- The effective inline capacity is plain `N` when `N` fits in `u16`. -/
theorem inline_capacity_of_le (cap : Nat) (h : cap ≤ 65535) :
    inline_capacity cap = cap := Nat.min_eq_left h

/-- C1: the claim states that insert on an Inline container below capacity
keeps all other elements in relative order, producing
`old[0..index] ++ [x] ++ old[index..len]`. The source's shift loop swaps
pairwise from `index` upward (left to right), which instead drags the
element at `index` to the end and pulls the placeholder slot into the
visible region. On the reachable capacity-4 container holding
`[10, 20, 30]`, `insert(1, 99)` yields visible contents `[10, 99, 0, 20]`
instead of the claimed `[10, 99, 20, 30]`. -/
theorem insert_inline_shift_bug :
    extend 4 (defaultVekk 4) [10, 20, 30] = some (.inline 3 [10, 20, 30, 0] : Repr Nat) ∧
    wf 4 (.inline 3 [10, 20, 30, 0] : Repr Nat) ∧
    insert 4 (.inline 3 [10, 20, 30, 0] : Repr Nat) 1 99 = some (.inline 4 [10, 99, 0, 20]) ∧
    toSlice (.inline 4 [10, 99, 0, 20] : Repr Nat) = [10, 99, 0, 20] ∧
    [10, 99, 0, 20] ≠
      (toSlice (.inline 3 [10, 20, 30, 0] : Repr Nat)).take 1 ++
        99 :: (toSlice (.inline 3 [10, 20, 30, 0] : Repr Nat)).drop 1 := by
  refine ⟨by decide, by decide, by decide, by decide, by decide⟩

/-- C3: the claim states that collecting any sequence longer than
`min(N, 65535)` (with an honest size hint) yields a Heap container with
identical contents. For `N = 1` and the two-element sequence `[1, 2]`
under the honest hint `(0, None)`, the source's fill loop promotes when it
pulls the second element but moves only the inline array and the remaining
iterator into the heap buffer, dropping the element that triggered the
promotion: the result is `Heap [1]`, not `Heap [1, 2]`. -/
theorem from_iter_drops_element :
    (0 ≤ ([1, 2] : List Nat).length) ∧
    inline_capacity 1 < ([1, 2] : List Nat).length ∧
    from_iter 1 (0, none) [1, 2] = (.heap [1] : Repr Nat) ∧
    toSlice (.heap [1] : Repr Nat) ≠ [1, 2] := by
  refine ⟨by decide, by decide, by decide, by decide⟩

/-- C4 (amended to inline capacities N ≤ 65535): converting an array of
exactly N elements yields an Inline container of length N holding the
array's elements in order, with no error path (the conversion is total).
For N > 65535 the stored `u16` length is `N mod 65536`, not `N`. -/
theorem from_array_spec (array : List α) (hlen : array.length ≤ 65535) :
    from_array array = .inline array.length array ∧
    wf array.length (from_array array) ∧
    len (from_array array) = array.length ∧
    toSlice (from_array array) = array := by
  have hmod : array.length % 65536 = array.length := Nat.mod_eq_of_lt (by omega)
  have h1 : from_array array = .inline array.length array := by
    rw [from_array, hmod]
  refine ⟨h1, ?_, ?_, ?_⟩
  · rw [h1]
    exact ⟨rfl, Nat.le_min.mpr ⟨Nat.le_refl _, hlen⟩⟩
  · rw [h1, len]
  · rw [h1, toSlice, List.take_length]

/-- Witness for `from_array_spec` at the concrete array `[1, 2, 3]`. -/
theorem from_array_spec_witness :
    ([1, 2, 3] : List Nat).length ≤ 65535 ∧
    (from_array [1, 2, 3] = (.inline ([1, 2, 3] : List Nat).length [1, 2, 3] : Repr Nat) ∧
      wf ([1, 2, 3] : List Nat).length (from_array [1, 2, 3]) ∧
      len (from_array ([1, 2, 3] : List Nat)) = ([1, 2, 3] : List Nat).length ∧
      toSlice (from_array ([1, 2, 3] : List Nat)) = [1, 2, 3]) :=
  ⟨by decide, from_array_spec [1, 2, 3] (by decide)⟩

/-- C4 counterexample: for N = 65536 the `len: A::CAPACITY as u16` cast
truncates, so the resulting container has length 0, not N. -/
theorem from_array_overflow_counterexample :
    from_array (List.replicate 65536 (5 : Nat)) = .inline 0 (List.replicate 65536 5) ∧
    len (from_array (List.replicate 65536 (5 : Nat))) = 0 ∧
    toSlice (from_array (List.replicate 65536 (5 : Nat))) = [] ∧
    (0 : Nat) ≠ 65536 := by
  have h1 : from_array (List.replicate 65536 (5 : Nat)) =
      .inline 0 (List.replicate 65536 5) := by
    rw [from_array, List.length_replicate]
  refine ⟨h1, ?_, ?_, by norm_num⟩
  · rw [h1, len]
  · rw [h1, toSlice, List.take_zero]

/-- C2 (amended to inline capacities N ≤ 65535): push appends `x` to the
visible contents; the representation becomes Heap exactly when the
container was Inline with length equal to the effective capacity (the live
elements are then moved to the heap in original order ahead of `x`), and
is otherwise unchanged. For N > 65535 the promotion moves all N array
slots, appending the trailing placeholder slots as well. -/
theorem push_spec [Inhabited α] (cap : Nat) (v : Repr α) (x : α)
    (hwf : wf cap v) (hcap : cap ≤ 65535) :
    ∃ v2, push_inner cap v x = some v2 ∧
      toSlice v2 = toSlice v ++ [x] ∧
      (isHeap v2 = true ↔ (isHeap v = true ∨ len v = inline_capacity cap)) ∧
      (∀ lv array, v = .inline lv array → lv < inline_capacity cap →
        v2 = .inline (lv + 1) (array.set lv x)) := by
  have hic : inline_capacity cap = cap := inline_capacity_of_le cap hcap
  cases v with
  | inline lv array =>
    obtain ⟨hlen, hle⟩ := hwf
    rw [Nat.le_min] at hle
    by_cases hfull : lv = inline_capacity cap
    · refine ⟨.heap (array ++ [x]), ?_, ?_, ?_, ?_⟩
      · simp [push_inner, hfull, thinvec_from_array]
      · have : array.take lv = array := by
          rw [hfull, hic, ← hlen, List.take_length]
        simp [toSlice, this]
      · simp [isHeap, len, hfull, hic, hlen]
      · intro lv2 array2 heq hlt
        injection heq with h1 h2
        omega
    · rw [hic] at hfull
      have hlt : lv < cap := by omega
      have hset : setPanic array lv x = some (array.set lv x) := by
        rw [setPanic, if_pos (by omega)]
      have hmod : (lv + 1) % 65536 = lv + 1 := Nat.mod_eq_of_lt (by omega)
      refine ⟨.inline (lv + 1) (array.set lv x), ?_, ?_, ?_, ?_⟩
      · simp [push_inner, hic, hfull, hset, hmod]
      · simp only [toSlice]
        rw [set_take_succ array lv x (by omega)]
      · simp [isHeap, len, hic]
        omega
      · intro lv2 array2 heq hlt2
        injection heq with h1 h2
        subst h1
        subst h2
        rfl
  | heap vec =>
    refine ⟨.heap (vec ++ [x]), by simp [push_inner], rfl, by simp [isHeap], ?_⟩
    intro lv2 array2 heq _
    exact absurd heq (by simp)

/-- Witness for `push_spec`: pushing 7 onto a full capacity-1 inline
container promotes to heap with contents `[5, 7]`. -/
theorem push_spec_witness :
    (wf 1 (.inline 1 [5] : Repr Nat) ∧ 1 ≤ 65535) ∧
    (∃ v2, push_inner 1 (.inline 1 [5] : Repr Nat) 7 = some v2 ∧
      toSlice v2 = toSlice (.inline 1 [5] : Repr Nat) ++ [7] ∧
      (isHeap v2 = true ↔
        (isHeap (.inline 1 [5] : Repr Nat) = true ∨
          len (.inline 1 [5] : Repr Nat) = inline_capacity 1)) ∧
      (∀ lv array, (.inline 1 [5] : Repr Nat) = .inline lv array →
        lv < inline_capacity 1 → v2 = .inline (lv + 1) (array.set lv 7))) :=
  ⟨⟨by decide, by decide⟩, push_spec 1 (.inline 1 [5]) 7 (by decide) (by decide)⟩

/-- C2 counterexample: with N = 65536 (effective capacity 65535), pushing
onto a full well-formed inline container moves all 65536 array slots into
the heap, so the visible contents gain an extra placeholder slot and do
not equal the old contents followed by the new element. -/
theorem push_capover_counterexample :
    wf 65536 (.inline 65535 (List.replicate 65536 (7 : Nat))) ∧
    push_inner 65536 (.inline 65535 (List.replicate 65536 (7 : Nat))) 9 =
      some (.heap (List.replicate 65536 7 ++ [9])) ∧
    toSlice (.heap (List.replicate 65536 (7 : Nat) ++ [9]) : Repr Nat) ≠
      toSlice (.inline 65535 (List.replicate 65536 (7 : Nat)) : Repr Nat) ++ [9] := by
  have hic : inline_capacity 65536 = 65535 := by
    rw [inline_capacity, Nat.min_def, if_neg (by omega)]
  refine ⟨⟨by rw [List.length_replicate], by rw [Nat.le_min]; omega⟩, ?_, ?_⟩
  · rw [push_inner.eq_def, hic]
    dsimp only
    rw [if_pos rfl]
    rfl
  · intro h
    have hl := congrArg List.length h
    rw [toSlice, toSlice, List.length_append, List.length_append,
      List.length_replicate, List.length_take, List.length_replicate] at hl
    simp [Nat.min_def] at hl

/-- C5: pop never panics; it returns the empty signal exactly when the
container is empty (leaving it unchanged), and otherwise removes and
returns the last visible element, keeping the remaining elements in
order. -/
theorem pop_spec [Inhabited α] (cap : Nat) (v : Repr α) (hwf : wf cap v) :
    ∃ res v2, pop v = some (res, v2) ∧
      (res = none ↔ len v = 0) ∧
      (len v = 0 → v2 = v) ∧
      (0 < len v → res = (toSlice v).getLast? ∧ len v2 = len v - 1 ∧
        toSlice v2 = (toSlice v).dropLast) := by
  cases v with
  | inline lv array =>
    obtain ⟨hlen, hle⟩ := hwf
    rw [Nat.le_min] at hle
    obtain ⟨hle1, hle2⟩ := hle
    by_cases hz : lv = 0
    · subst hz
      refine ⟨none, .inline 0 array, ?_, by simp [len], fun _ => rfl, ?_⟩
      · rw [pop, if_neg (by omega)]
      · intro h
        simp [len] at h
    · have hpos : 0 < lv := Nat.pos_of_ne_zero hz
      have hidx : lv - 1 < array.length := by omega
      have hget : array[lv - 1]? = some array[lv - 1] := List.getElem?_eq_getElem hidx
      have hmin : min lv array.length = lv := Nat.min_eq_left (by omega)
      refine ⟨some array[lv - 1], .inline (lv - 1) (array.set (lv - 1) default),
        ?_, ?_, ?_, ?_⟩
      · simp [pop, hpos, hget]
      · simp [len, hz]
      · intro h
        simp [len] at h
        exact absurd h hz
      · intro _
        refine ⟨?_, by simp [len], ?_⟩
        · rw [toSlice, List.getLast?_eq_getElem?, List.length_take, hmin,
            List.getElem?_take_of_lt (by omega), hget]
        · rw [toSlice, toSlice, take_set_self, List.dropLast_eq_take,
            List.length_take, hmin, List.take_take,
            Nat.min_eq_left (by omega : lv - 1 ≤ lv)]
  | heap vec =>
    cases hv : vec.getLast? with
    | none =>
      have hnil : vec = [] := List.getLast?_eq_none_iff.mp hv
      subst hnil
      refine ⟨none, .heap [], rfl, by simp [len], fun _ => rfl, ?_⟩
      intro h
      simp [len] at h
    | some y =>
      have hne : vec ≠ [] := by
        intro hnil
        rw [hnil] at hv
        simp at hv
      refine ⟨some y, .heap vec.dropLast, ?_, ?_, ?_, ?_⟩
      · simp [pop, tvPop, hv]
      · simp [len, List.length_eq_zero, hne]
      · intro h
        simp [len, List.length_eq_zero] at h
        exact absurd h hne
      · intro _
        exact ⟨hv.symm, by simp [len], rfl⟩

/-- Witness for `pop_spec` on the inline container `[5]` with one spare
slot. -/
theorem pop_spec_witness :
    wf 2 (.inline 1 [5, 0] : Repr Nat) ∧
    (∃ res v2, pop (.inline 1 [5, 0] : Repr Nat) = some (res, v2) ∧
      (res = none ↔ len (.inline 1 [5, 0] : Repr Nat) = 0) ∧
      (len (.inline 1 [5, 0] : Repr Nat) = 0 → v2 = (.inline 1 [5, 0] : Repr Nat)) ∧
      (0 < len (.inline 1 [5, 0] : Repr Nat) →
        res = (toSlice (.inline 1 [5, 0] : Repr Nat)).getLast? ∧
        len v2 = len (.inline 1 [5, 0] : Repr Nat) - 1 ∧
        toSlice v2 = (toSlice (.inline 1 [5, 0] : Repr Nat)).dropLast)) :=
  ⟨by decide, pop_spec 2 (.inline 1 [5, 0]) (by decide)⟩

theorem foldl_bind_none {γ δ : Type} (g : γ → δ → Option γ) (items : List δ) :
    items.foldl (fun acc item => acc.bind (fun r => g r item)) none = none := by
  induction items with
  | nil => rfl
  | cons x xs ih =>
    rw [List.foldl_cons]
    simpa using ih

theorem extend_cons [Inhabited α] (cap : Nat) (v : Repr α) (x : α) (xs : List α) :
    extend cap v (x :: xs) = (push_inner cap v x).bind (fun r => extend cap r xs) := by
  rw [extend, List.foldl_cons]
  cases hp : push_inner cap v x with
  | none =>
    simp only [Option.some_bind, hp, Option.none_bind]
    exact foldl_bind_none (fun r item => push_inner cap r item) xs
  | some v1 =>
    simp only [Option.some_bind, hp]
    rfl

theorem applyOps_cons [Inhabited α] (cap : Nat) (v : Repr α) (op : Op α) (ops : List (Op α)) :
    applyOps cap v (op :: ops) = (applyOp cap v op).bind (fun r => applyOps cap r ops) := by
  rw [applyOps, List.foldl_cons]
  cases hp : applyOp cap v op with
  | none =>
    simp only [Option.some_bind, hp, Option.none_bind]
    exact foldl_bind_none (fun r o => applyOp cap r o) ops
  | some v1 =>
    simp only [Option.some_bind, hp]
    rfl

theorem push_inner_isHeap [Inhabited α] (cap : Nat) (v : Repr α) (x : α) (v2 : Repr α)
    (hv : isHeap v = true) (h : push_inner cap v x = some v2) : isHeap v2 = true := by
  cases v with
  | inline lv array => simp [isHeap] at hv
  | heap vec =>
    rw [push_inner] at h
    injection h with h1
    rw [← h1, isHeap]

theorem extend_isHeap [Inhabited α] (cap : Nat) (xs : List α) :
    ∀ (v : Repr α) (v2 : Repr α), isHeap v = true → extend cap v xs = some v2 →
    isHeap v2 = true := by
  induction xs with
  | nil =>
    intro v v2 hv h
    rw [extend, List.foldl_nil] at h
    injection h with h1
    rw [← h1]
    exact hv
  | cons x xs ih =>
    intro v v2 hv h
    rw [extend_cons] at h
    cases hp : push_inner cap v x with
    | none =>
      rw [hp] at h
      simp at h
    | some v1 =>
      rw [hp] at h
      simp only [Option.some_bind] at h
      exact ih v1 v2 (push_inner_isHeap cap v x v1 hv hp) h

theorem applyOp_isHeap [Inhabited α] (cap : Nat) (v : Repr α) (op : Op α) (v2 : Repr α)
    (hv : isHeap v = true) (h : applyOp cap v op = some v2) : isHeap v2 = true := by
  cases v with
  | inline lv array => simp [isHeap] at hv
  | heap vec =>
    cases op with
    | push x => exact push_inner_isHeap cap _ x v2 hv h
    | ins index x =>
      rw [applyOp, insert] at h
      cases ht : tvInsert vec index x with
      | none =>
        rw [ht] at h
        simp at h
      | some vec2 =>
        rw [ht] at h
        simp at h
        rw [← h, isHeap]
    | popOp =>
      rw [applyOp, pop] at h
      simp at h
      rw [← h, isHeap]
    | ext xs => exact extend_isHeap cap xs _ v2 hv h

/-- C6: once a container is in Heap state, any successfully executed
sequence of push, insert, pop and extend operations (including popping to
zero elements) leaves it in Heap state: no reachable transition from Heap
back to Inline exists. -/
theorem heap_ops_absorbing [Inhabited α] (cap : Nat) (ops : List (Op α)) :
    ∀ (v v2 : Repr α), isHeap v = true → applyOps cap v ops = some v2 →
    isHeap v2 = true := by
  induction ops with
  | nil =>
    intro v v2 hv h
    rw [applyOps, List.foldl_nil] at h
    injection h with h1
    rw [← h1]
    exact hv
  | cons op ops ih =>
    intro v v2 hv h
    rw [applyOps_cons] at h
    cases hp : applyOp cap v op with
    | none =>
      rw [hp] at h
      simp at h
    | some v1 =>
      rw [hp] at h
      simp only [Option.some_bind] at h
      exact ih v1 v2 (applyOp_isHeap cap v op v1 hv hp) h

/-- Witness for `heap_ops_absorbing`: a heap container stays heap across a
push, an insert, two pops (down to one element) and an extend. -/
theorem heap_ops_absorbing_witness :
    isHeap (.heap [1] : Repr Nat) = true ∧
    applyOps 1 (.heap [1] : Repr Nat)
      [.push 2, .ins 0 5, .popOp, .popOp, .ext [8]] = some (.heap [5, 8]) ∧
    isHeap (.heap [5, 8] : Repr Nat) = true :=
  ⟨by decide, by decide,
    heap_ops_absorbing 1 [.push 2, .ins 0 5, .popOp, .popOp, .ext [8]]
      (.heap [1]) (.heap [5, 8]) (by decide) (by decide)⟩

/-- C7: the consuming iterator of a well-formed container yields exactly
the visible slice in insertion order, then returns no element forever from
a state that reproduces itself; and at every reachable intermediate state
the size hint is exactly `(r, some r)` where `r` is the true number of
elements still to be yielded. -/
theorem into_iter_spec [Inhabited α] (cap : Nat) (v : Repr α) (hwf : wf cap v) :
    (∃ r, drain (len v) (intoIter v) = some (toSlice v, r) ∧
      iterNext r = some (none, r) ∧ ∀ k, drain k r = some ([], r)) ∧
    (∀ k xs it, drain k (intoIter v) = some (xs, it) →
      iterSizeHint it = ((iterToList it).length, some (iterToList it).length) ∧
      (∃ r2, drain (iterToList it).length it = some (iterToList it, r2)) ∧
      toSlice v = xs ++ iterToList it) := by
  have hwfi := wfIter_intoIter cap v hwf
  have hlist := iterToList_intoIter cap v hwf
  have hlen : (iterToList (intoIter v)).length = len v := by
    rw [hlist]
    exact length_toSlice cap v hwf
  constructor
  · obtain ⟨r, hdr, hre, hwfr⟩ := drain_exact (len v) (intoIter v) hwfi hlen
    rw [hlist] at hdr
    exact ⟨r, hdr, hre, drain_exhausted r hre⟩
  · intro k xs it h
    obtain ⟨hwfit, hsplit⟩ := drain_prefix k (intoIter v) hwfi xs it h
    refine ⟨iterSizeHint_exact it hwfit, ?_, ?_⟩
    · obtain ⟨r2, hd2, _, _⟩ := drain_exact (iterToList it).length it hwfit rfl
      exact ⟨r2, hd2⟩
    · rw [← hlist, hsplit]

/-- Witness for `into_iter_spec` on the inline container holding `[5]`. -/
theorem into_iter_spec_witness :
    wf 1 (.inline 1 [5] : Repr Nat) ∧
    ((∃ r, drain (len (.inline 1 [5] : Repr Nat)) (intoIter (.inline 1 [5] : Repr Nat)) =
        some (toSlice (.inline 1 [5] : Repr Nat), r) ∧
      iterNext r = some (none, r) ∧ ∀ k, drain k r = some ([], r)) ∧
    (∀ k xs it, drain k (intoIter (.inline 1 [5] : Repr Nat)) = some (xs, it) →
      iterSizeHint it = ((iterToList it).length, some (iterToList it).length) ∧
      (∃ r2, drain (iterToList it).length it = some (iterToList it, r2)) ∧
      toSlice (.inline 1 [5] : Repr Nat) = xs ++ iterToList it)) :=
  ⟨by decide, into_iter_spec 1 (.inline 1 [5]) (by decide)⟩

/-- C8 (amended to inline capacities N ≤ 65535): consuming a container
into the owned iterator (whose initial size hint is exact) and collecting
the yielded elements back into a container of the same inline capacity
preserves the visible contents and their order. -/
theorem roundtrip_spec [Inhabited α] (cap : Nat) (v : Repr α)
    (hwf : wf cap v) (hcap : cap ≤ 65535) :
    toSlice (from_iter cap (iterSizeHint (intoIter v)) (iterToList (intoIter v))) =
      toSlice v := by
  have hwfi := wfIter_intoIter cap v hwf
  have hhint := iterSizeHint_exact (intoIter v) hwfi
  rw [iterToList_intoIter cap v hwf] at hhint ⊢
  rw [hhint, from_iter]
  dsimp only
  by_cases hgt : cap < (toSlice v).length
  · rw [if_pos hgt]
    rfl
  · rw [if_neg hgt]
    have hL : (toSlice v).length ≤ cap := Nat.le_of_not_lt hgt
    rw [Nat.min_eq_left hcap,
      fill_loop_fits (toSlice v) (List.replicate cap default) 0 cap (by omega)
        (by rw [List.length_replicate])]
    rw [Nat.zero_add, Nat.mod_eq_of_lt (show (toSlice v).length < 65536 by omega)]
    simp only [toSlice, List.take_zero, List.nil_append]
    exact List.take_left' rfl

/-- Witness for `roundtrip_spec` on the inline container holding `[5]`
with capacity 2. -/
theorem roundtrip_spec_witness :
    (wf 2 (.inline 1 [5, 0] : Repr Nat) ∧ 2 ≤ 65535) ∧
    toSlice (from_iter 2 (iterSizeHint (intoIter (.inline 1 [5, 0] : Repr Nat)))
        (iterToList (intoIter (.inline 1 [5, 0] : Repr Nat)))) =
      toSlice (.inline 1 [5, 0] : Repr Nat) :=
  ⟨⟨by decide, by decide⟩, roundtrip_spec 2 (.inline 1 [5, 0]) (by decide) (by decide)⟩

/-- C8 counterexample: for N = 65536, a heap container of 65536 elements
round-trips through the iterator into the fill loop (the exact hint 65536
does not exceed N), which promotes at the u16 cap 65535, drops the
triggering element and appends a placeholder slot: the contents change. -/
theorem roundtrip_counterexample :
    wf 65536 (.heap (List.replicate 65536 (1 : Nat))) ∧
    toSlice (from_iter 65536
        (iterSizeHint (intoIter (.heap (List.replicate 65536 (1 : Nat)))))
        (iterToList (intoIter (.heap (List.replicate 65536 (1 : Nat)))))) ≠
      toSlice (.heap (List.replicate 65536 (1 : Nat)) : Repr Nat) := by
  refine ⟨trivial, ?_⟩
  have h2 : iterSizeHint (intoIter (.heap (List.replicate 65536 (1 : Nat)))) =
      (65536, some 65536) := by
    rw [intoIter, iterSizeHint, List.length_replicate]
  have h3 : iterToList (intoIter (.heap (List.replicate 65536 (1 : Nat)))) =
      List.replicate 65536 1 := rfl
  rw [h2, h3, from_iter]
  dsimp only
  rw [if_neg (by omega)]
  have hmin : min 65536 65535 = 65535 := by
    rw [Nat.min_def, if_neg (by omega)]
  rw [hmin, fill_loop_overflow (List.replicate 65536 1) (List.replicate 65536 default) 0
    65535 (by omega) (by rw [List.length_replicate]; omega) (by rw [List.length_replicate]; omega)]
  simp only [toSlice, List.take_zero, List.nil_append, Nat.sub_zero,
    List.take_replicate, List.drop_replicate, hmin]
  have e1 : (0 : Nat) ⊓ 65536 = 0 := rfl
  have e2 : (65535 : Nat) ⊓ 65536 = 65535 := by
    rw [Nat.min_def, if_pos (by omega)]
  have e3 : (65536 : Nat) - 65535 = 1 := rfl
  have e4 : (65536 : Nat) - (65535 + 1) = 0 := rfl
  simp only [e1, e2, e3, e4, List.replicate_zero, List.replicate_one,
    List.nil_append, List.append_nil]
  intro h
  have hget := congrArg (fun l => l[65535]?) h
  simp only at hget
  rw [List.getElem?_append_right (by rw [List.length_replicate]),
    List.length_replicate, Nat.sub_self] at hget
  have hd : (default : Nat) = 0 := rfl
  rw [hd] at hget
  rw [List.getElem?_replicate] at hget
  simp at hget

/-- C9 (amended): insert with index strictly greater than the length
panics only when the index is outside the backing storage: an Inline
container below effective capacity panics iff index ≥ N (for
len < index < N the insert returns successfully, silently corrupting the
container); an Inline container at effective capacity panics iff
index > N; a Heap container panics iff index > buffer length. -/
theorem insert_oob_spec [Inhabited α] (cap : Nat) (v : Repr α) (index : Nat) (x : α)
    (hwf : wf cap v) (hoob : len v < index) :
    (insert cap v index x = none ↔
      (match v with
       | .inline lv _ => if lv = inline_capacity cap then cap < index else cap ≤ index
       | .heap vec => vec.length < index)) := by
  cases v with
  | inline lv array =>
    obtain ⟨hlen, _⟩ := hwf
    rw [len] at hoob
    dsimp only
    by_cases hfull : lv = inline_capacity cap
    · rw [if_pos hfull, insert.eq_def]
      dsimp only
      rw [if_pos hfull]
      have harr : thinvec_from_array array (inline_capacity cap + 1) = array := rfl
      rw [harr, tvInsert]
      by_cases hc : index ≤ array.length
      · rw [if_pos hc]
        simp only [Option.map_some']
        constructor
        · intro hx
          exact absurd hx (by simp)
        · intro hx
          omega
      · rw [if_neg hc]
        simp only [Option.map_none']
        constructor
        · intro _
          omega
        · intro _
          trivial
    · rw [if_neg hfull, insert.eq_def]
      dsimp only
      rw [if_neg hfull]
      have hswap : swapLoop array index lv = some array := by
        rw [swapLoop, Nat.sub_eq_zero_of_le (Nat.le_of_lt hoob), swapLoopAux]
      rw [hswap]
      dsimp only
      rw [setPanic]
      by_cases hc : index < array.length
      · rw [if_pos hc]
        constructor
        · intro hx
          exact absurd hx (by simp)
        · intro hx
          omega
      · rw [if_neg hc]
        constructor
        · intro _
          omega
        · intro _
          rfl
  | heap vec =>
    rw [len] at hoob
    dsimp only
    rw [insert.eq_def]
    dsimp only
    rw [tvInsert]
    by_cases hc : index ≤ vec.length
    · rw [if_pos hc]
      simp only [Option.map_some']
      constructor
      · intro hx
        exact absurd hx (by simp)
      · intro hx
        omega
    · rw [if_neg hc]
      simp only [Option.map_none']
      constructor
      · intro _
        omega
      · intro _
        trivial

/-- Witness for `insert_oob_spec`: inserting at index 5 into a two-element
heap container panics, as 5 exceeds the buffer length. -/
theorem insert_oob_spec_witness :
    (wf 2 (.heap [1, 2] : Repr Nat) ∧ len (.heap [1, 2] : Repr Nat) < 5) ∧
    (insert 2 (.heap [1, 2] : Repr Nat) 5 7 = none ↔
      ([1, 2] : List Nat).length < 5) :=
  ⟨⟨trivial, by decide⟩, insert_oob_spec 2 (.heap [1, 2]) 5 7 trivial (by decide)⟩

/-- C9 counterexample: the claim says every insert at index > len aborts,
but on the reachable empty capacity-4 inline container, insert at index 2
(with length 0) returns successfully instead of panicking, writing the
element into a hidden slot and incrementing the length. -/
theorem insert_oob_counterexample :
    defaultVekk 4 = (.inline 0 [0, 0, 0, 0] : Repr Nat) ∧
    len (.inline 0 [0, 0, 0, 0] : Repr Nat) < 2 ∧
    insert 4 (.inline 0 [0, 0, 0, 0] : Repr Nat) 2 99 = some (.inline 1 [0, 0, 99, 0]) ∧
    toSlice (.inline 1 [0, 0, 99, 0] : Repr Nat) = [0] := by
  refine ⟨by decide, by decide, by decide, by decide⟩

end Vekk
